import Mathlib

/-!
Verification of the two Boost excerpts vendored in this repository:
the WebSocket hybi13 key/accept derivation
(include/boost/beast/websocket/detail/hybi13.ipp) and the histogram
axis-projection algorithm (include/boost/histogram/algorithm/project.hpp).

Bytes are modelled as natural numbers below 256, byte buffers as lists of
naturals, and textual tokens as lists of characters.  The collaborators that
the two source files pull in from elsewhere in Boost (base64, SHA-1, the
pseudo random generator, the fixed-capacity string, the histogram cell
machinery) are modelled from the specification, as marked on each
definition.

The file is laid out with all definitions first, followed by the theorems.
-/

namespace Hybi13

namespace Base64

/-- Modelled from the spec: the base64 collaborator (RFC 4648 standard
alphabet and padding) is not among the provided source files; spec §6 fixes
its contract.  The 64-character standard alphabet, in value order. -/
def alphabet : List Char :=
  ['A', 'B', 'C', 'D', 'E', 'F', 'G', 'H', 'I', 'J', 'K', 'L', 'M',
   'N', 'O', 'P', 'Q', 'R', 'S', 'T', 'U', 'V', 'W', 'X', 'Y', 'Z',
   'a', 'b', 'c', 'd', 'e', 'f', 'g', 'h', 'i', 'j', 'k', 'l', 'm',
   'n', 'o', 'p', 'q', 'r', 's', 't', 'u', 'v', 'w', 'x', 'y', 'z',
   '0', '1', '2', '3', '4', '5', '6', '7', '8', '9', '+', '/']

/-- Modelled from the spec: the character encoding a 6-bit value. -/
def encChar (n : Nat) : Char := alphabet.getD n '?'

/-- Modelled from the spec: the 6-bit value of an alphabet character. -/
def decChar (c : Char) : Option Nat := alphabet.findIdx? (fun x => x = c)

/-- Modelled from the spec: RFC 4648 encoding of a byte list, taking three
bytes to four characters, with '=' padding on a final short group. -/
def encode : List Nat → List Char
  | [] => []
  | [a] => [encChar (a / 4), encChar (a % 4 * 16), '=', '=']
  | [a, b] => [encChar (a / 4), encChar (a % 4 * 16 + b / 16),
               encChar (b % 16 * 4), '=']
  | a :: b :: c :: rest =>
      encChar (a / 4) :: encChar (a % 4 * 16 + b / 16) ::
      encChar (b % 16 * 4 + c / 64) :: encChar (c % 64) :: encode rest

/-- Modelled from the spec: maximum-output-length computation of the base64
collaborator for a given input byte count (spec §6). -/
def encodedSize (n : Nat) : Nat := 4 * ((n + 2) / 3)

/-- Modelled from the spec: RFC 4648 decoding, four characters to three
bytes, accepting '=' padding only at the very end of the text. -/
def decode : List Char → Option (List Nat)
  | [] => some []
  | a :: b :: c :: d :: rest =>
      match decChar a, decChar b with
      | some x, some y =>
          if c = '=' then
            if d = '=' ∧ rest = [] then some [x * 4 + y / 16] else none
          else
            match decChar c with
            | some z =>
                if d = '=' then
                  if rest = [] then
                    some [x * 4 + y / 16, y % 16 * 16 + z / 4]
                  else none
                else
                  match decChar d with
                  | some w =>
                      match decode rest with
                      | some tl =>
                          some ((x * 4 + y / 16) :: (y % 16 * 16 + z / 4) ::
                                (z % 4 * 64 + w) :: tl)
                      | none => none
                  | none => none
            | none => none
      | _, _ => none
  | _ => none

end Base64

namespace Sha1

/-- State space of the compression function: five 32-bit words. -/
abbrev State5 := Nat × Nat × Nat × Nat × Nat

/-- Truncation to a 32-bit word. -/
def w32 (n : Nat) : Nat := n % 4294967296

/-- Left rotation of a 32-bit word by s places. -/
def rotl (s n : Nat) : Nat := (n * 2 ^ s + n / 2 ^ (32 - s)) % 4294967296

/-- Modelled from the spec: the SHA-1 collaborator (spec §6, standard
init / update / finish semantics, 20-byte digest) is not among the provided
source files.  The round-dependent bitwise function of FIPS 180. -/
def roundF (t b c d : Nat) : Nat :=
  if t < 20 then (b &&& c) ||| ((b ^^^ 4294967295) &&& d)
  else if t < 40 then b ^^^ c ^^^ d
  else if t < 60 then (b &&& c) ||| (b &&& d) ||| (c &&& d)
  else b ^^^ c ^^^ d

/-- Modelled from the spec: the round-dependent additive constant. -/
def roundK (t : Nat) : Nat :=
  if t < 20 then 1518500249
  else if t < 40 then 1859775393
  else if t < 60 then 2400959708
  else 3395469782

/-- Modelled from the spec: the next word of the message schedule, computed
from the previous sixteen words (the list holds the schedule so far in
reverse, most recent word first). -/
def nextW (ws : List Nat) : Nat :=
  rotl 1 (ws.getD 2 0 ^^^ ws.getD 7 0 ^^^ ws.getD 13 0 ^^^ ws.getD 15 0)

/-- Modelled from the spec: one compression round. -/
def round (t : Nat) (st : State5) (w : Nat) : State5 :=
  (w32 (rotl 5 st.1 + roundF t st.2.1 st.2.2.1 st.2.2.2.1 +
        st.2.2.2.2 + w + roundK t),
   st.1, rotl 30 st.2.1, st.2.2.1, st.2.2.2.1)

/-- Modelled from the spec: running the 80 compression rounds over one block
of sixteen 32-bit words, extending the message schedule as it goes. -/
def rounds : Nat → Nat → State5 → List Nat → List Nat → State5
  | 0, _, st, _, _ => st
  | fuel + 1, t, st, block, ws =>
      let w := if t < 16 then block.getD t 0 else nextW ws
      rounds fuel (t + 1) (round t st w) block (w :: ws)

/-- Modelled from the spec: one application of the compression function,
adding the round output back into the chaining state. -/
def processBlock (h : State5) (block : List Nat) : State5 :=
  let st := rounds 80 0 h block []
  (w32 (h.1 + st.1), w32 (h.2.1 + st.2.1), w32 (h.2.2.1 + st.2.2.1),
   w32 (h.2.2.2.1 + st.2.2.2.1), w32 (h.2.2.2.2 + st.2.2.2.2))

/-- Modelled from the spec: big-endian byte expansion of a number into k
bytes, most significant first. -/
def beBytes : Nat → Nat → List Nat
  | 0, _ => []
  | k + 1, n => beBytes k (n / 256) ++ [n % 256]

/-- Modelled from the spec: FIPS 180 padding — a 0x80 byte, zeros up to
56 mod 64, then the bit length in eight big-endian bytes. -/
def padMessage (msg : List Nat) : List Nat :=
  msg ++ 128 :: List.replicate ((119 - msg.length % 64) % 64) 0 ++
    beBytes 8 (msg.length * 8)

/-- Modelled from the spec: grouping a padded byte list into big-endian
32-bit words. -/
def bytesToWords : List Nat → List Nat
  | a :: b :: c :: d :: rest =>
      (a * 16777216 + b * 65536 + c * 256 + d) :: bytesToWords rest
  | _ => []

/-- Modelled from the spec: iterating the compression function over the
given number of 16-word blocks. -/
def iterateBlocks : Nat → State5 → List Nat → State5
  | 0, h, _ => h
  | n + 1, h, words => iterateBlocks n (processBlock h (words.take 16)) (words.drop 16)

/-- Modelled from the spec: the initial chaining value of SHA-1. -/
def initState : State5 :=
  (1732584193, 4023233417, 2562383102, 271733878, 3285377520)

/-- Modelled from the spec: the full 20-byte SHA-1 digest of a byte list. -/
def sha1Digest (msg : List Nat) : List Nat :=
  let words := bytesToWords (padMessage msg)
  let h := iterateBlocks (words.length / 16) initState words
  beBytes 4 h.1 ++ beBytes 4 h.2.1 ++ beBytes 4 h.2.2.1 ++
    beBytes 4 h.2.2.2.1 ++ beBytes 4 h.2.2.2.2

/-- Modelled from the spec: the streaming digest context — the source calls
init, one update over the whole buffer, then finish.  The context
accumulates the bytes fed so far. -/
structure Sha1Context where
  buf : List Nat

/-- Modelled from the spec: context initialisation. -/
def init : Sha1Context := ⟨[]⟩

/-- Modelled from the spec: feeding bytes into the context. -/
def update (ctx : Sha1Context) (data : List Nat) : Sha1Context :=
  ⟨ctx.buf ++ data⟩

/-- Modelled from the spec: the digest size constant of the context. -/
def digest_size : Nat := 20

/-- Modelled from the spec: finalisation, producing the 20-byte digest of
everything fed into the context. -/
def finish (ctx : Sha1Context) : List Nat := sha1Digest ctx.buf

end Sha1

/-- Modelled from the spec: the fixed-capacity string collaborator
(static_string); constructing one from a byte list fails when the list
exceeds the capacity. -/
def staticStrMake (cap : Nat) (s : List Nat) : Option (List Nat) :=
  if s.length ≤ cap then some s else none

/-- Modelled from the spec: appending to a fixed-capacity string fails when
the result would exceed the capacity. -/
def staticStrAppend (cap : Nat) (s t : List Nat) : Option (List Nat) :=
  if s.length + t.length ≤ cap then some (s ++ t) else none

/-- Maximum size of sec_ws_key_type: the encoded size of a 16-byte value,
as in hybi13.hpp (static_string of capacity base64 encoded_size 16). -/
def sec_ws_key_max_size_n : Nat := Base64.encodedSize 16

/-- ASCII bytes of the magic GUID literal appended in make_sec_ws_accept. -/
def guid : List Nat :=
  ("258EAFA5-E914-47DA-95CA-C5AB0DC85B11").data.map Char.toNat

/-- ASCII bytes of a string, for feeding textual keys to the model. -/
def asciiBytes (s : String) : List Nat := s.data.map Char.toNat

/-- The four bytes the make_sec_ws_key loop body stores for one generator
output v: v and 0xff, (v shifted right 8) and 0xff, (v shifted right 16)
and 0xff, (v shifted right 24) and 0xff. -/
def le4 (v : Nat) : List Nat :=
  [v &&& 255, (v >>> 8) &&& 255, (v >>> 16) &&& 255, (v >>> 24) &&& 255]

/-- The sixteen raw key bytes of make_sec_ws_key: the loop runs for
i = 0, 4, 8, 12, drawing one 32-bit value from the generator per iteration
(g n is the n-th draw, already truncated to 32 bits as the uint32 result
type dictates). -/
def keyBytes (g : Nat → Nat) : List Nat :=
  le4 (g 0 % 4294967296) ++ le4 (g 1 % 4294967296) ++
  le4 (g 2 % 4294967296) ++ le4 (g 3 % 4294967296)

/-- make_sec_ws_key from hybi13.ipp: fill sixteen bytes from four draws of
the 32-bit generator, then base64-encode them into the key buffer. -/
def make_sec_ws_key (g : Nat → Nat) : List Char :=
  Base64.encode (keyBytes g)

/-- make_sec_ws_accept from hybi13.ipp.  BOOST_ASSERT(key.size() <=
sec_ws_key_type::max_size_n) guards the entry; a violated assertion is
modelled as none.  Then the key is copied into a static_string of capacity
max_size_n + 36, the GUID is appended, the SHA-1 context is initialised,
updated with the whole buffer and finished, and the digest is
base64-encoded into the accept buffer. -/
def make_sec_ws_accept (key : List Nat) : Option (List Char) :=
  if key.length ≤ sec_ws_key_max_size_n then
    match staticStrMake (sec_ws_key_max_size_n + 36) key with
    | none => none
    | some m =>
        match staticStrAppend (sec_ws_key_max_size_n + 36) m guid with
        | none => none
        | some m2 =>
            let ctx := Sha1.init
            let ctx := Sha1.update ctx m2
            let digest := Sha1.finish ctx
            some (Base64.encode digest)
  else none

/-- Error kind of the hardened derivation variant. -/
inductive DeriveError where
  | invalidArgument
deriving DecidableEq

/-- Modelled from the spec: the hardened reimplementation of deriveAccept
(spec §7 and §9): an oversized key yields an explicit InvalidArgument-kind
error instead of an elided assertion; in-bound keys get the usual
digest-derived token. -/
def deriveAcceptHardened (key : List Nat) : Except DeriveError (List Char) :=
  if key.length ≤ sec_ws_key_max_size_n then
    Except.ok (Base64.encode (Sha1.sha1Digest (key ++ guid)))
  else
    Except.error DeriveError.invalidArgument

/-- The ambient mutable state of the component: the pseudo random source
(position in its stream and the stream itself).  make_sec_ws_accept never
touches it. -/
structure World where
  pos : Nat
  stream : Nat → Nat

/-- make_sec_ws_accept as a state-passing operation over the ambient world:
the source function reads only the key and writes only its local buffers,
so the world passes through unchanged. -/
def make_sec_ws_accept_st (w : World) (key : List Nat) :
    Option (List Char) × World :=
  (make_sec_ws_accept key, w)

/-- The RFC 6455 §1.3 example key, as bytes. -/
def rfcKey : List Nat := asciiBytes "dGhlIHNhbXBsZSBub25jZQ=="

/-- Modelled from the spec: the four bytes of one 32-bit output taken in
little-endian order, least-significant byte first (spec §4.1). -/
def leBytesSpec (v : Nat) : List Nat :=
  [v % 256, v / 256 % 256, v / 65536 % 256, v / 16777216 % 256]

/-- Modelled from the spec: the sixteen raw key bytes — four calls to the
32-bit generator, each output's four bytes little-endian, concatenated in
call order (spec §4.1). -/
def keyBytesSpec (g : Nat → Nat) : List Nat :=
  leBytesSpec (g 0 % 4294967296) ++ leBytesSpec (g 1 % 4294967296) ++
  leBytesSpec (g 2 % 4294967296) ++ leBytesSpec (g 3 % 4294967296)

end Hybi13

namespace Histo

/-- A histogram under coverage-all iteration: axes lists, per axis, the
total number of cell positions (bins plus the underflow and overflow slots
that indexed(h, coverage::all) walks); storage maps a cell index vector to
its accumulated content.  Modelled from the spec: the histogram cell
machinery (histogram.hpp, indexed.hpp) is not among the provided source
files, only the projection algorithm is. -/
structure Histogram where
  axes : List Nat
  storage : List Nat → Nat

/-- Modelled from the spec: the list of all cell index vectors that
indexed(h, coverage::all) visits, in lexicographic order. -/
def allIndices : List Nat → List (List Nat)
  | [] => [[]]
  | n :: rest => (List.range n).flatMap (fun i => (allIndices rest).map (i :: ·))

/-- The index vector the projection loop writes for one source cell x:
for each kept axis d (in range order) take x.index(d). -/
def keepIdx (c : List Nat) (v : List Nat) : List Nat :=
  c.map (fun d => v.getD d 0)

/-- The seen-buffer update of the uniqueness loop: reading seen[d], throwing
(none) when already set, marking it otherwise. -/
def markSeen (seen : List Bool) (d : Nat) : Option (List Bool) :=
  if seen.getD d false then none else some (seen.set d true)

/-- The uniqueness-checking loop of the iterable project overload: one pass
over the requested indices with a boolean buffer, failing on a repeat. -/
def checkDup (seen : List Bool) : List Nat → Option (List Bool)
  | [] => some seen
  | d :: rest =>
      match markSeen seen d with
      | none => none
      | some s => checkDup s rest

/-- The accumulation loop of project: for every source cell (coverage::all)
add its content into the result cell addressed by the kept indices.  The
result storage starts zeroed (make_default). -/
def accumulate (h : Histogram) (c : List Nat) : List Nat → Nat :=
  (allIndices h.axes).foldl
    (fun t v => Function.update t (keepIdx c v) (t (keepIdx c v) + h.storage v))
    (fun _ => 0)

/-- The iterable-index overload of boost::histogram::algorithm::project:
check the requested axis indices for repeats (throwing
std::invalid_argument on one), build the reduced axis list, then run the
accumulation loop over every source cell. -/
def project (h : Histogram) (c : List Nat) : Except String Histogram :=
  match checkDup (List.replicate h.axes.length false) c with
  | none => Except.error "indices must be unique"
  | some _ =>
      Except.ok
        { axes := keepIdx c h.axes
          storage := accumulate h c }

/-- Whether an Except outcome is the thrown-exception branch. -/
def isErr : Except String Histogram → Bool
  | Except.error _ => true
  | Except.ok _ => false

/-- Total content of a histogram: the sum of its storage over all cells
visited under coverage-all. -/
def totalContent (h : Histogram) : Nat :=
  ((allIndices h.axes).map h.storage).sum

end Histo

/-! ## Theorems -/

namespace Hybi13

namespace Base64

theorem decChar_encChar_fin : ∀ n : Fin 64, decChar (encChar n.val) = some n.val := by
  decide

theorem decChar_encChar {n : Nat} (h : n < 64) : decChar (encChar n) = some n :=
  decChar_encChar_fin ⟨n, h⟩

theorem encChar_ne_pad_fin : ∀ n : Fin 64, encChar n.val ≠ '=' := by
  decide

theorem encChar_ne_pad {n : Nat} (h : n < 64) : encChar n ≠ '=' :=
  encChar_ne_pad_fin ⟨n, h⟩

theorem decode_encode : ∀ l : List Nat, (∀ x ∈ l, x < 256) →
    decode (encode l) = some l := by
  intro l
  induction l using encode.induct with
  | case1 =>
      intro _; rfl
  | case2 a =>
      intro hb
      have ha : a < 256 := hb a (by simp)
      have h1 : a / 4 < 64 := by omega
      have h2 : a % 4 * 16 < 64 := by omega
      simp only [encode, decode, decChar_encChar h1, decChar_encChar h2]
      simp only [if_pos rfl, and_self, if_pos]
      congr 1
      have : a % 4 * 16 / 16 = a % 4 := by omega
      rw [this]
      have : a / 4 * 4 + a % 4 = a := by omega
      rw [this]
  | case3 a b =>
      intro hb
      have ha : a < 256 := hb a (by simp)
      have hb' : b < 256 := hb b (by simp)
      have h1 : a / 4 < 64 := by omega
      have h2 : a % 4 * 16 + b / 16 < 64 := by omega
      have h3 : b % 16 * 4 < 64 := by omega
      have e1 : a / 4 * 4 + (a % 4 * 16 + b / 16) / 16 = a := by omega
      have e2 : (a % 4 * 16 + b / 16) % 16 * 16 + b % 16 * 4 / 4 = b := by omega
      simp only [encode, decode, decChar_encChar h1, decChar_encChar h2,
        decChar_encChar h3, if_neg (encChar_ne_pad h3)]
      simp [e1, e2]
      omega
  | case4 a b c rest ih =>
      intro hmem
      have ha : a < 256 := hmem a (by simp)
      have hb' : b < 256 := hmem b (by simp)
      have hc : c < 256 := hmem c (by simp)
      have h1 : a / 4 < 64 := by omega
      have h2 : a % 4 * 16 + b / 16 < 64 := by omega
      have h3 : b % 16 * 4 + c / 64 < 64 := by omega
      have h4 : c % 64 < 64 := by omega
      have ihr : decode (encode rest) = some rest := by
        apply ih
        intro x hx
        exact hmem x (by simp [hx])
      have e1 : a / 4 * 4 + (a % 4 * 16 + b / 16) / 16 = a := by omega
      have e2 : (a % 4 * 16 + b / 16) % 16 * 16 + (b % 16 * 4 + c / 64) / 4
          = b := by omega
      have e3 : (b % 16 * 4 + c / 64) % 4 * 64 + c % 64 = c := by omega
      simp only [encode, decode, decChar_encChar h1, decChar_encChar h2,
        decChar_encChar h3, decChar_encChar h4,
        if_neg (encChar_ne_pad h3), if_neg (encChar_ne_pad h4), ihr]
      simp [e1, e2, e3]

theorem encode_length : ∀ l : List Nat, (encode l).length = encodedSize l.length := by
  intro l
  induction l using encode.induct with
  | case1 => rfl
  | case2 a => simp [encode, encodedSize]
  | case3 a b => simp [encode, encodedSize]
  | case4 a b c rest ih =>
      simp only [encode, List.length_cons, ih, encodedSize]
      omega

end Base64

theorem beBytes_length : ∀ k n, (Sha1.beBytes k n).length = k := by
  intro k
  induction k with
  | zero => intro n; rfl
  | succ k ih => intro n; simp [Sha1.beBytes, ih]

theorem sha1Digest_length (msg : List Nat) : (Sha1.sha1Digest msg).length = 20 := by
  simp [Sha1.sha1Digest, beBytes_length]

theorem guid_length : guid.length = 36 := rfl

theorem max_size_eq : sec_ws_key_max_size_n = 24 := rfl

theorem make_sec_ws_accept_eq {key : List Nat}
    (h : key.length ≤ sec_ws_key_max_size_n) :
    make_sec_ws_accept key =
      some (Base64.encode (Sha1.sha1Digest (key ++ guid))) := by
  rw [max_size_eq] at h
  have h2 : key.length ≤ 24 + 36 := by omega
  have h3 : key.length + 36 ≤ 24 + 36 := by omega
  simp [make_sec_ws_accept, staticStrMake, staticStrAppend, max_size_eq,
    guid_length, h, h2, h3, Sha1.init, Sha1.update, Sha1.finish]

theorem le4_lt (v : Nat) : ∀ x ∈ le4 v, x < 256 := by
  intro x hx
  simp only [le4, List.mem_cons, List.not_mem_nil, or_false] at hx
  rcases hx with h | h | h | h <;> subst h <;>
    exact Nat.lt_succ_of_le Nat.and_le_right

theorem keyBytes_lt (g : Nat → Nat) : ∀ x ∈ keyBytes g, x < 256 := by
  intro x hx
  simp only [keyBytes, List.mem_append] at hx
  rcases hx with ((h | h) | h) | h <;> exact le4_lt _ x h

theorem keyBytes_length (g : Nat → Nat) : (keyBytes g).length = 16 := by
  simp [keyBytes, le4]

theorem and255_eq_mod (x : Nat) : x &&& 255 = x % 256 := by
  have h := Nat.and_pow_two_sub_one_eq_mod x 8
  norm_num at h
  exact h

theorem le4_eq_leBytesSpec (v : Nat) : le4 v = leBytesSpec v := by
  simp only [le4, leBytesSpec, and255_eq_mod, Nat.shiftRight_eq_div_pow]

/-- C1: for every key within the length precondition, make_sec_ws_accept
concatenates the key with the GUID literal, takes the 20-byte SHA-1 digest
of the concatenation via init / update over the full buffer / finish, and
base64-encodes that digest; the output length is the base64 encoding length
of 20 bytes. -/
theorem C1_accept_concat_sha1_base64 (key : List Nat)
    (h : key.length ≤ sec_ws_key_max_size_n) :
    make_sec_ws_accept key =
      some (Base64.encode (Sha1.finish (Sha1.update Sha1.init (key ++ guid)))) ∧
    (Sha1.finish (Sha1.update Sha1.init (key ++ guid))).length = 20 ∧
    ∀ out, make_sec_ws_accept key = some out →
      out.length = Base64.encodedSize 20 := by
  have he : Sha1.finish (Sha1.update Sha1.init (key ++ guid)) =
      Sha1.sha1Digest (key ++ guid) := by
    simp [Sha1.finish, Sha1.update, Sha1.init]
  refine ⟨?_, ?_, ?_⟩
  · rw [he, make_sec_ws_accept_eq h]
  · rw [he]; exact sha1Digest_length _
  · intro out hout
    rw [make_sec_ws_accept_eq h] at hout
    injection hout with h2
    rw [← h2, Base64.encode_length, sha1Digest_length]

/-- Witness for C1 at the RFC 6455 example key. -/
theorem C1_accept_concat_sha1_base64_w :
    rfcKey.length ≤ sec_ws_key_max_size_n ∧
    (make_sec_ws_accept rfcKey =
      some (Base64.encode (Sha1.finish (Sha1.update Sha1.init (rfcKey ++ guid)))) ∧
    (Sha1.finish (Sha1.update Sha1.init (rfcKey ++ guid))).length = 20 ∧
    ∀ out, make_sec_ws_accept rfcKey = some out →
      out.length = Base64.encodedSize 20) :=
  ⟨by decide, C1_accept_concat_sha1_base64 rfcKey (by decide)⟩

set_option maxRecDepth 10000 in
/-- C2: on the RFC 6455 example key, make_sec_ws_accept returns exactly the
documented accept token. -/
theorem C2_rfc6455_known_answer :
    make_sec_ws_accept rfcKey = some ("s3pPLMBiTxaQ9kYGzzhZRbK+xOo=").data := by
  decide

/-- C3: every key within the length bound — valid base64 or not — makes it
past the assertion and through both buffer operations, producing a
digest-derived token of 28 characters; the failure branch is unreachable. -/
theorem C3_bounded_key_no_crash (key : List Nat)
    (h : key.length ≤ sec_ws_key_max_size_n) :
    ∃ out, make_sec_ws_accept key = some out ∧
      out = Base64.encode (Sha1.sha1Digest (key ++ guid)) ∧
      out.length = 28 := by
  refine ⟨_, make_sec_ws_accept_eq h, rfl, ?_⟩
  rw [Base64.encode_length, sha1Digest_length]
  rfl

/-- Witness for C3 at a malformed (non-base64, wrongly sized) but bounded
key. -/
theorem C3_bounded_key_no_crash_w :
    (asciiBytes "not-base64!").length ≤ sec_ws_key_max_size_n ∧
    ∃ out, make_sec_ws_accept (asciiBytes "not-base64!") = some out ∧
      out = Base64.encode (Sha1.sha1Digest (asciiBytes "not-base64!" ++ guid)) ∧
      out.length = 28 :=
  ⟨by decide, C3_bounded_key_no_crash (asciiBytes "not-base64!") (by decide)⟩

/-- C4: an oversized key makes the hardened derivation variant fail with the
explicit InvalidArgument error. -/
theorem C4_oversized_key_invalid_argument (key : List Nat)
    (h : sec_ws_key_max_size_n < key.length) :
    deriveAcceptHardened key = Except.error DeriveError.invalidArgument := by
  simp only [deriveAcceptHardened]
  rw [if_neg (by omega)]

/-- Witness for C4 at a 25-byte key, one over the bound. -/
theorem C4_oversized_key_invalid_argument_w :
    sec_ws_key_max_size_n < (List.replicate 25 65).length ∧
    deriveAcceptHardened (List.replicate 25 65) =
      Except.error DeriveError.invalidArgument :=
  ⟨by decide, C4_oversized_key_invalid_argument (List.replicate 25 65) (by decide)⟩

/-- C5: whatever the state of the random source, the generated key is 24
characters long, decodes successfully from base64, and the decoded value is
exactly the 16 raw bytes drawn from the generator. -/
theorem C5_key_roundtrip (g : Nat → Nat) :
    (make_sec_ws_key g).length = 24 ∧
    Base64.decode (make_sec_ws_key g) = some (keyBytes g) ∧
    (keyBytes g).length = 16 := by
  refine ⟨?_, ?_, keyBytes_length g⟩
  · rw [make_sec_ws_key, Base64.encode_length, keyBytes_length]
    rfl
  · exact Base64.decode_encode _ (keyBytes_lt g)

/-- Witness for C5 at a concrete generator state. -/
theorem C5_key_roundtrip_w :
    (make_sec_ws_key (fun n => n * 3 + 1)).length = 24 ∧
    Base64.decode (make_sec_ws_key (fun n => n * 3 + 1)) =
      some (keyBytes (fun n => n * 3 + 1)) ∧
    (keyBytes (fun n => n * 3 + 1)).length = 16 :=
  C5_key_roundtrip (fun n => n * 3 + 1)

/-- C6: the sixteen raw key bytes are assembled from exactly four draws of
the 32-bit generator, each draw contributing its four bytes in
little-endian order in call order, and the key is their base64 encoding;
the key depends only on the first four draws. -/
theorem C6_key_assembly (g g' : Nat → Nat) (h : ∀ i, i < 4 → g i = g' i) :
    make_sec_ws_key g = Base64.encode (keyBytesSpec g) ∧
    make_sec_ws_key g = make_sec_ws_key g' := by
  constructor
  · rw [make_sec_ws_key]
    congr 1
    simp [keyBytes, keyBytesSpec, le4_eq_leBytesSpec]
  · rw [make_sec_ws_key, make_sec_ws_key]
    congr 1
    simp [keyBytes, h 0 (by omega), h 1 (by omega), h 2 (by omega),
      h 3 (by omega)]

/-- Witness for C6 at a pair of generators agreeing on their first four
draws. -/
theorem C6_key_assembly_w :
    (∀ i, i < 4 → (fun n : Nat => n + 7) i = (fun n : Nat => n + 7) i) ∧
    (make_sec_ws_key (fun n => n + 7) =
      Base64.encode (keyBytesSpec (fun n => n + 7)) ∧
    make_sec_ws_key (fun n => n + 7) = make_sec_ws_key (fun n => n + 7)) :=
  ⟨fun _ _ => rfl, C6_key_assembly _ _ (fun _ _ => rfl)⟩

/-- C7: make_sec_ws_accept is deterministic and stateless — run from any
two states of the ambient world with the same key it yields the same
token, it leaves the world untouched, and the token is the pure digest
function of the key alone. -/
theorem C7_accept_deterministic_stateless (w w' : World) (key : List Nat)
    (h : key.length ≤ sec_ws_key_max_size_n) :
    (make_sec_ws_accept_st w key).1 = (make_sec_ws_accept_st w' key).1 ∧
    (make_sec_ws_accept_st w key).2 = w ∧
    (make_sec_ws_accept_st w key).1 =
      some (Base64.encode (Sha1.sha1Digest (key ++ guid))) :=
  ⟨rfl, rfl, make_sec_ws_accept_eq h⟩

/-- Witness for C7 at two different worlds and the RFC example key. -/
theorem C7_accept_deterministic_stateless_w :
    rfcKey.length ≤ sec_ws_key_max_size_n ∧
    ((make_sec_ws_accept_st ⟨0, fun _ => 0⟩ rfcKey).1 =
      (make_sec_ws_accept_st ⟨5, fun n => n⟩ rfcKey).1 ∧
    (make_sec_ws_accept_st ⟨0, fun _ => 0⟩ rfcKey).2 = ⟨0, fun _ => 0⟩ ∧
    (make_sec_ws_accept_st ⟨0, fun _ => 0⟩ rfcKey).1 =
      some (Base64.encode (Sha1.sha1Digest (rfcKey ++ guid)))) :=
  ⟨by decide, C7_accept_deterministic_stateless ⟨0, fun _ => 0⟩ ⟨5, fun n => n⟩
    rfcKey (by decide)⟩

/-- C8: under the asserted precondition the fixed-capacity buffer of
capacity max_size_n + 36 accommodates the key and then the 36-character
GUID: construction and append both stay within capacity. -/
theorem C8_buffer_capacity (key : List Nat)
    (h : key.length ≤ sec_ws_key_max_size_n) :
    staticStrMake (sec_ws_key_max_size_n + 36) key = some key ∧
    staticStrAppend (sec_ws_key_max_size_n + 36) key guid = some (key ++ guid) := by
  constructor
  · simp only [staticStrMake]
    rw [if_pos (by omega)]
  · simp only [staticStrAppend, guid_length]
    rw [if_pos (by omega)]

/-- Witness for C8 at the RFC example key. -/
theorem C8_buffer_capacity_w :
    rfcKey.length ≤ sec_ws_key_max_size_n ∧
    (staticStrMake (sec_ws_key_max_size_n + 36) rfcKey = some rfcKey ∧
    staticStrAppend (sec_ws_key_max_size_n + 36) rfcKey guid =
      some (rfcKey ++ guid)) :=
  ⟨by decide, C8_buffer_capacity rfcKey (by decide)⟩

end Hybi13

namespace Histo

theorem getD_set_self {l : List Bool} {d : Nat} (h : d < l.length) :
    (l.set d true).getD d false = true := by
  rw [List.getD_eq_getElem?_getD, List.getElem?_set_self (by simpa using h)]
  rfl

theorem getD_set_ne {l : List Bool} {d e : Nat} (h : d ≠ e) :
    (l.set d true).getD e false = l.getD e false := by
  rw [List.getD_eq_getElem?_getD, List.getElem?_set_ne h,
    ← List.getD_eq_getElem?_getD]

theorem getD_replicate_false {n d : Nat} :
    (List.replicate n false).getD d false = false := by
  rw [List.getD_eq_getElem?_getD, List.getElem?_replicate]
  split <;> rfl

theorem checkDup_isSome : ∀ (c : List Nat) (seen : List Bool),
    (∀ d ∈ c, d < seen.length) →
    ((checkDup seen c).isSome = true ↔
      (c.Nodup ∧ ∀ d ∈ c, seen.getD d false = false)) := by
  intro c
  induction c with
  | nil =>
      intro seen _
      simp [checkDup]
  | cons d rest ih =>
      intro seen hb
      have hd : d < seen.length := hb d (List.mem_cons_self d rest)
      by_cases hs : seen.getD d false = true
      · simp only [checkDup, markSeen, hs, if_true]
        constructor
        · intro hfalse; simp at hfalse
        · rintro ⟨_, hall⟩
          have := hall d (List.mem_cons_self d rest)
          rw [hs] at this
          simp at this
      · have hs' : seen.getD d false = false := by
          cases hx : seen.getD d false
          · rfl
          · exact absurd hx hs
        simp only [checkDup, markSeen, hs', if_false, Bool.false_eq_true]
        rw [ih (seen.set d true)
          (fun e he => by rw [List.length_set]; exact hb e (List.mem_cons_of_mem d he))]
        constructor
        · rintro ⟨hndr, hallr⟩
          refine ⟨List.nodup_cons.mpr ⟨?_, hndr⟩, ?_⟩
          · intro hdm
            have := hallr d hdm
            rw [getD_set_self hd] at this
            simp at this
          · intro e he
            rcases List.mem_cons.mp he with rfl | hm
            · exact hs'
            · have hgot := hallr e hm
              by_cases hde : d = e
              · subst hde
                rw [getD_set_self hd] at hgot
                simp at hgot
              · rwa [getD_set_ne hde] at hgot
        · rintro ⟨hnd, hall⟩
          obtain ⟨hdn, hndr⟩ := List.nodup_cons.mp hnd
          refine ⟨hndr, ?_⟩
          intro e he
          have hde : d ≠ e := fun hq => hdn (hq ▸ he)
          rw [getD_set_ne hde]
          exact hall e (List.mem_cons_of_mem d he)

theorem checkDup_fresh (h : Histogram) (c : List Nat)
    (hc : ∀ d ∈ c, d < h.axes.length) :
    (checkDup (List.replicate h.axes.length false) c).isSome = true ↔ c.Nodup := by
  rw [checkDup_isSome c _
    (fun d hd => by rw [List.length_replicate]; exact hc d hd)]
  constructor
  · exact fun hx => hx.1
  · exact fun hnd => ⟨hnd, fun d _ => getD_replicate_false⟩

theorem mem_allIndices : ∀ (axes v : List Nat),
    v ∈ allIndices axes ↔ List.Forall₂ (fun i n => i < n) v axes := by
  intro axes
  induction axes with
  | nil =>
      intro v
      simp only [allIndices, List.mem_singleton]
      constructor
      · rintro rfl; exact List.Forall₂.nil
      · intro hf; cases hf; rfl
  | cons n rest ih =>
      intro v
      simp only [allIndices, List.mem_flatMap, List.mem_map, List.mem_range]
      constructor
      · rintro ⟨i, hi, w, hw, rfl⟩
        exact List.Forall₂.cons hi ((ih w).mp hw)
      · intro hf
        cases hf with
        | cons hrel htail => exact ⟨_, hrel, _, (ih _).mpr htail, rfl⟩

theorem allIndices_nodup : ∀ axes : List Nat, (allIndices axes).Nodup := by
  intro axes
  induction axes with
  | nil => simp [allIndices]
  | cons n rest ih =>
      rw [allIndices, List.nodup_flatMap]
      constructor
      · intro i _
        apply List.Nodup.map ?_ ih
        intro x y hxy
        simpa using hxy
      · apply List.Pairwise.imp ?_ (List.nodup_range n)
        intro a b hne x hxa hxb
        simp only [List.mem_map] at hxa hxb
        obtain ⟨u, _, rfl⟩ := hxa
        obtain ⟨w, _, hwe⟩ := hxb
        injection hwe with hba _
        exact hne hba.symm

theorem forall₂_lt_getD {v axes : List Nat}
    (hf : List.Forall₂ (fun i n => i < n) v axes) :
    ∀ d, d < axes.length → v.getD d 0 < axes.getD d 0 := by
  induction hf with
  | nil => intro d hd; simp at hd
  | cons hrel htail ih =>
      intro d hd
      cases d with
      | zero => simpa [List.getD] using hrel
      | succ d =>
          simp only [List.getD_cons_succ]
          exact ih d (by simpa using hd)

theorem keepIdx_mem_allIndices {axes c v : List Nat}
    (hc : ∀ d ∈ c, d < axes.length) (hv : v ∈ allIndices axes) :
    keepIdx c v ∈ allIndices (keepIdx c axes) := by
  rw [mem_allIndices] at hv ⊢
  have hpt : ∀ d, d < axes.length → v.getD d 0 < axes.getD d 0 :=
    forall₂_lt_getD hv
  clear hv
  induction c with
  | nil => exact List.Forall₂.nil
  | cons d rest ih =>
      simp only [keepIdx, List.map_cons]
      exact List.Forall₂.cons
        (hpt d (hc d (List.mem_cons_self d rest)))
        (ih fun e he => hc e (List.mem_cons_of_mem d he))

theorem foldl_update_apply (f : List Nat → List Nat) (val : List Nat → Nat) :
    ∀ (cells : List (List Nat)) (t0 : List Nat → Nat) (k : List Nat),
      (cells.foldl (fun t v => Function.update t (f v) (t (f v) + val v)) t0) k
        = t0 k + ((cells.filter (fun v => decide (f v = k))).map val).sum := by
  intro cells
  induction cells with
  | nil => intro t0 k; simp
  | cons v rest ih =>
      intro t0 k
      rw [List.foldl_cons, ih]
      by_cases hfv : f v = k
      · subst hfv
        simp only [List.filter_cons, decide_eq_true_eq, eq_self_iff_true,
          if_true, List.map_cons, List.sum_cons, Function.update_same]
        omega
      · have hk : k ≠ f v := fun hq => hfv hq.symm
        simp only [List.filter_cons, decide_eq_true_eq, if_neg hfv,
          Function.update_noteq hk]

theorem accumulate_apply (h : Histogram) (c : List Nat) (k : List Nat) :
    accumulate h c k = (((allIndices h.axes).filter
      (fun v => decide (keepIdx c v = k))).map h.storage).sum := by
  rw [accumulate, foldl_update_apply]
  simp

theorem sum_map_ite_notmem (x : Nat) (a : List Nat) :
    ∀ K : List (List Nat), a ∉ K →
      (K.map (fun k => if a = k then x else 0)).sum = 0 := by
  intro K
  induction K with
  | nil => intro _; rfl
  | cons b rest ih =>
      intro hna
      have hab : a ≠ b := by
        intro hq
        subst hq
        exact hna (List.mem_cons_self a rest)
      simp only [List.map_cons, List.sum_cons]
      rw [if_neg hab, ih (fun hm => hna (List.mem_cons_of_mem b hm))]

theorem sum_single_hit (x : Nat) :
    ∀ (K : List (List Nat)) (a : List Nat), a ∈ K → K.Nodup →
      (K.map (fun k => if a = k then x else 0)).sum = x := by
  intro K
  induction K with
  | nil => intro a ha; simp at ha
  | cons b rest ih =>
      intro a ha hnd
      obtain ⟨hnb, hndr⟩ := List.nodup_cons.mp hnd
      simp only [List.map_cons, List.sum_cons]
      rcases List.mem_cons.mp ha with rfl | hmem
      · rw [if_pos rfl, sum_map_ite_notmem x a rest hnb]
        omega
      · have hab : a ≠ b := fun hq => hnb (hq ▸ hmem)
        rw [if_neg hab, ih a hmem hndr]
        omega

theorem sum_map_add (f g : List Nat → Nat) :
    ∀ l : List (List Nat),
      (l.map (fun x => f x + g x)).sum = (l.map f).sum + (l.map g).sum := by
  intro l
  induction l with
  | nil => rfl
  | cons a l ih =>
      simp only [List.map_cons, List.sum_cons, ih]
      omega

theorem sum_partition (f : List Nat → List Nat) (val : List Nat → Nat) :
    ∀ (cells : List (List Nat)) (K : List (List Nat)),
      K.Nodup → (∀ v ∈ cells, f v ∈ K) →
      (K.map (fun k =>
        ((cells.filter (fun v => decide (f v = k))).map val).sum)).sum
        = (cells.map val).sum := by
  intro cells
  induction cells with
  | nil =>
      intro K _ _
      simp
  | cons v rest ih =>
      intro K hnd hmem
      have hv : f v ∈ K := hmem v (List.mem_cons_self v rest)
      have hrest : ∀ u ∈ rest, f u ∈ K :=
        fun u hu => hmem u (List.mem_cons_of_mem v hu)
      have hpt : ∀ k ∈ K,
          ((List.filter (fun u => decide (f u = k)) (v :: rest)).map val).sum
            = (if f v = k then val v else 0) +
              ((rest.filter (fun u => decide (f u = k))).map val).sum := by
        intro k _
        by_cases hq : f v = k
        · simp [List.filter_cons, hq]
        · simp [List.filter_cons, hq]
      rw [List.map_congr_left hpt, sum_map_add, sum_single_hit (val v) K (f v) hv hnd,
        ih K hnd hrest]
      simp

/-- C9: the iterable-index overload of project throws std::invalid_argument
exactly when the requested index range repeats an axis index; the decision
is taken by the uniqueness pass alone, before any result histogram is
built, independently of the source storage (which the pure model never
mutates in either outcome). -/
theorem C9_project_throw_iff_dup (h : Histogram) (c : List Nat)
    (hc : ∀ d ∈ c, d < h.axes.length) :
    (isErr (project h c) = true ↔ ¬ c.Nodup) ∧
    (¬ c.Nodup → project h c = Except.error "indices must be unique") ∧
    (∀ s' : List Nat → Nat,
      isErr (project { axes := h.axes, storage := s' } c) = isErr (project h c)) := by
  have hkey := checkDup_fresh h c hc
  refine ⟨?_, ?_, ?_⟩
  · cases hck : checkDup (List.replicate h.axes.length false) c with
    | none =>
        rw [hck] at hkey
        simp only [project, hck, isErr]
        simp only [Option.isSome_none, Bool.false_eq_true, false_iff] at hkey
        simp [hkey]
    | some s =>
        rw [hck] at hkey
        simp only [project, hck, isErr]
        simp only [Option.isSome_some, true_iff] at hkey
        simp [hkey]
  · intro hnd
    cases hck : checkDup (List.replicate h.axes.length false) c with
    | none => simp [project, hck]
    | some s =>
        rw [hck] at hkey
        simp only [Option.isSome_some, true_iff] at hkey
        exact absurd hkey hnd
  · intro s'
    cases hck : checkDup (List.replicate h.axes.length false) c with
    | none => simp [project, hck, isErr]
    | some s => simp [project, hck, isErr]

/-- Witness for C9 at a concrete two-axis histogram and a repeated index
list. -/
theorem C9_project_throw_iff_dup_w :
    (∀ d ∈ ([0, 0] : List Nat),
      d < (Histogram.mk [2, 3] (fun _ => 1)).axes.length) ∧
    ((isErr (project (Histogram.mk [2, 3] (fun _ => 1)) [0, 0]) = true ↔
      ¬ ([0, 0] : List Nat).Nodup) ∧
    (¬ ([0, 0] : List Nat).Nodup →
      project (Histogram.mk [2, 3] (fun _ => 1)) [0, 0] =
        Except.error "indices must be unique") ∧
    (∀ s' : List Nat → Nat,
      isErr (project { axes := (Histogram.mk [2, 3] (fun _ => 1)).axes,
                       storage := s' } [0, 0]) =
        isErr (project (Histogram.mk [2, 3] (fun _ => 1)) [0, 0]))) :=
  ⟨by decide, C9_project_throw_iff_dup (Histogram.mk [2, 3] (fun _ => 1))
    [0, 0] (by decide)⟩

/-- C10: for unique in-range kept indices, project succeeds and each
result cell holds the sum of all source cells (walked under coverage-all)
whose indices agree on the kept axes; consequently the total content is
preserved. -/
theorem C10_project_cell_sums (h : Histogram) (c : List Nat)
    (hnd : c.Nodup) (hc : ∀ d ∈ c, d < h.axes.length) :
    ∃ r, project h c = Except.ok r ∧
      (∀ idx, r.storage idx =
        (((allIndices h.axes).filter
          (fun v => decide (keepIdx c v = idx))).map h.storage).sum) ∧
      totalContent r = totalContent h := by
  have hkey := (checkDup_fresh h c hc).mpr hnd
  rw [Option.isSome_iff_exists] at hkey
  obtain ⟨s, hs⟩ := hkey
  refine ⟨⟨keepIdx c h.axes, accumulate h c⟩, ?_, ?_, ?_⟩
  · simp [project, hs]
  · intro idx
    exact accumulate_apply h c idx
  · rw [totalContent, totalContent]
    show ((allIndices (keepIdx c h.axes)).map (accumulate h c)).sum
      = ((allIndices h.axes).map h.storage).sum
    rw [List.map_congr_left (fun k _ => accumulate_apply h c k)]
    exact sum_partition (keepIdx c) h.storage (allIndices h.axes)
      (allIndices (keepIdx c h.axes)) (allIndices_nodup _)
      (fun v hv => keepIdx_mem_allIndices hc hv)

/-- Witness for C10 at a concrete two-axis histogram, keeping axis 1. -/
theorem C10_project_cell_sums_w :
    ([1] : List Nat).Nodup ∧
    (∀ d ∈ ([1] : List Nat),
      d < (Histogram.mk [2, 2] (fun v => v.getD 0 0 + 2 * v.getD 1 0)).axes.length) ∧
    ∃ r, project (Histogram.mk [2, 2] (fun v => v.getD 0 0 + 2 * v.getD 1 0)) [1] =
        Except.ok r ∧
      (∀ idx, r.storage idx =
        (((allIndices (Histogram.mk [2, 2]
            (fun v => v.getD 0 0 + 2 * v.getD 1 0)).axes).filter
          (fun v => decide (keepIdx [1] v = idx))).map
            (Histogram.mk [2, 2] (fun v => v.getD 0 0 + 2 * v.getD 1 0)).storage).sum) ∧
      totalContent r =
        totalContent (Histogram.mk [2, 2] (fun v => v.getD 0 0 + 2 * v.getD 1 0)) :=
  ⟨by decide, by decide,
    C10_project_cell_sums
      (Histogram.mk [2, 2] (fun v => v.getD 0 0 + 2 * v.getD 1 0)) [1]
      (by decide) (by decide)⟩

end Histo
